import Mathlib

/-!
Verification development for the `download_pdfs.py` PDF acquisition pipeline
(repository TechFreePDF).

The Python source is shallowly embedded: the filesystem is a list of
`FileEntry` records (listing order = the order `DOWNLOAD_DIR.glob` enumerates
the directory), fallible I/O operations are modelled by per-file success
flags (`hashOk` for reads during hashing, `readOk` for reads during PDF
validation, `unlinkOk` for deletion), byte strings are `List Nat`, and the
MD5 hexdigest is modelled as an injective fingerprint of the byte sequence.
Python's `\w` and `\s` character classes are modelled over the ASCII range,
which covers every concrete name appearing in this development.
-/

/-- Bytes of a file or HTTP body. -/
abbrev Bytes := List Nat

/-- The 4-byte `%PDF` signature (`b'%PDF'`). -/
def pdfMagic : Bytes := [0x25, 0x50, 0x44, 0x46]

/-- Model of `hashlib.md5(bs).hexdigest()`: an injective fingerprint of the
byte sequence, rendered as a (never empty) string. -/
def md5hex (bs : Bytes) : String := "md5:" ++ toString bs

/-- Python `str.endswith`, modelled on the character sequence. -/
def pyEndsWith (s suffix : String) : Bool :=
  suffix.toList.isSuffixOf s.toList

/-- One file of the download directory, together with flags saying which
I/O operations on it succeed (`True`) or raise (`False`). -/
structure FileEntry where
  name : String
  content : Bytes
  hashOk : Bool
  readOk : Bool
  unlinkOk : Bool
  deriving DecidableEq, Repr

/-- `get_file_hash`: MD5 of the file's bytes, or `""` when reading raises
(the bare `except Exception: return ""` clause). -/
def get_file_hash (f : FileEntry) : String :=
  if f.hashOk then md5hex f.content else ""

/-! ### Filename helpers shared by the discovery strategies -/

/-- Python `\w` (word character), restricted to the ASCII range. -/
def isWordChar (c : Char) : Bool := c.isAlphanum || c == '_'

/-- Worker for `collapseWs`; the flag records whether the previous
character was whitespace (i.e. we are inside a run already replaced). -/
def collapseWsAux : Bool → List Char → List Char
  | _, [] => []
  | prevWs, c :: rest =>
    if c.isWhitespace then
      if prevWs then collapseWsAux true rest
      else '_' :: collapseWsAux true rest
    else c :: collapseWsAux false rest

/-- `re.sub(r'\s+', '_', s)`: each maximal whitespace run becomes one `_`. -/
def collapseWs (l : List Char) : List Char := collapseWsAux false l

/-- `re.sub(r'[^\w\s.-]', '_', s)` followed by `re.sub(r'\s+', '_', s)`:
the normalization applied to every synthesized filename. -/
def normalizeKeepDots (s : String) : String :=
  String.mk (collapseWs (s.toList.map (fun c =>
    if isWordChar c || c.isWhitespace || c == '.' || c == '-' then c else '_')))

/-- `if not filename.endswith('.pdf'): filename += '.pdf'`. -/
def ensurePdfExt (s : String) : String :=
  if pyEndsWith s ".pdf" then s else s ++ ".pdf"

/-- Full filename normalization: character substitution, whitespace
collapsing, and the guaranteed `.pdf` extension. -/
def normalizeFilename (s : String) : String :=
  ensurePdfExt (normalizeKeepDots s)

/-- Strip leading and trailing whitespace (Python `str.strip()`). -/
def stripChars (l : List Char) : List Char :=
  ((l.dropWhile Char.isWhitespace).reverse.dropWhile Char.isWhitespace).reverse

/-- `re.sub(r'[^\w\s-]', '', title).strip()[:100]`: the treatment of a
link's visible text / title before it is used as a filename. -/
def cleanTitle (title : String) : String :=
  String.mk ((stripChars (title.toList.filter
    (fun c => isWordChar c || c.isWhitespace || c == '-'))).take 100)

/-- Scan for the first occurrence of `://` and return what follows it. -/
def afterSchemeAux : List Char → Option (List Char)
  | [] => none
  | ':' :: '/' :: '/' :: rest => some rest
  | _ :: rest => afterSchemeAux rest

/-- Path component of a URL (`urlparse(url).path`), modelled for
well-formed absolute HTTP(S) URLs: the text after the authority, up to the
first `?` or `#`; a scheme-less string is treated as a bare path. -/
def urlPath (url : String) : String :=
  match afterSchemeAux url.toList with
  | none => String.mk (url.toList.takeWhile (fun c => c != '?' && c != '#'))
  | some hostAndPath =>
    String.mk ((hostAndPath.dropWhile (· != '/')).takeWhile
      (fun c => c != '?' && c != '#'))

/-- `os.path.basename`: the segment after the last `/`. -/
def basenameOf (p : String) : String :=
  String.mk ((p.toList.reverse.takeWhile (· != '/')).reverse)

/-- The degenerate-filename test
`not filename or filename == '.pdf' or len(filename) < 5`. -/
def badName (s : String) : Bool :=
  s == "" || s == ".pdf" || decide (s.length < 5)

/-- The synthetic fallback `f"pdf_{hash(url) % 10000}.pdf"`; `urlHash`
models Python's per-process `hash` on strings. -/
def hashName (urlHash : String → Nat) (url : String) : String :=
  "pdf_" ++ toString (urlHash url % 10000) ++ ".pdf"

/-! ### Duplicate-name sweep (`remove_duplicate_files`) -/

/-- Whether every character is a digit (`\d+` over a concrete run). -/
def allDigits (l : List Char) : Bool := l.all Char.isDigit

/-- Search for the non-greedy match of `^(.+?)_` against a stem whose
remainder must be `\d+`: the shortest nonempty prefix followed by `_` and a
nonempty all-digit suffix.  `acc` holds the reversed prefix read so far. -/
def findBase : List Char → List Char → Option (List Char)
  | _, [] => none
  | acc, c :: rest =>
    if c == '_' && !acc.isEmpty && !rest.isEmpty && allDigits rest then
      some acc.reverse
    else findBase (c :: acc) rest

/-- The regex `^(.+?)_\d+\.pdf$` of `remove_duplicate_files`: on a match,
the reconstructed base filename `group(1) + '.pdf'`. -/
def nameKey (name : String) : Option String :=
  if pyEndsWith name ".pdf" then
    match findBase [] (name.toList.take (name.toList.length - 4)) with
    | some base => some (String.mk base ++ ".pdf")
    | none => none
  else none

/-- First phase of `remove_duplicate_files`: walk the directory listing,
recording in `bound` the base names seen so far (both keys written by
numbered variants and plain file names), and collect as duplicates every
numbered variant whose base name is already bound. -/
def scanDups : List FileEntry → List String → List FileEntry
  | [], _ => []
  | f :: rest, bound =>
    match nameKey f.name with
    | some b =>
      if b ∈ bound then f :: scanDups rest bound
      else scanDups rest (b :: bound)
    | none => scanDups rest (f.name :: bound)

/-- Second phase of `remove_duplicate_files`: `for dup in duplicates:
dup.unlink()` with no per-file exception handler — a failing unlink raises
out of the loop.  Returns the names actually deleted and whether the loop
ran to completion. -/
def unlinkRun : List FileEntry → List String × Bool
  | [] => ([], true)
  | f :: rest =>
    if f.unlinkOk then
      let r := unlinkRun rest
      (f.name :: r.1, r.2)
    else ([], false)

/-- `remove_duplicate_files`: the duplicate-name sweep.  Returns the
surviving directory listing and whether the deletion loop completed
without an exception escaping. -/
def remove_duplicate_files (files : List FileEntry) : List FileEntry × Bool :=
  let r := unlinkRun (scanDups files [])
  (files.filter (fun f => !r.1.contains f.name), r.2)

/-! ### Duplicate-content sweep (`remove_duplicate_content_files`) -/

/-- Append `f` to the group keyed `h`, preserving Python dict insertion
order (`hash_to_files[hash_value].append(filepath)`). -/
def addToGroups : List (String × List FileEntry) → String → FileEntry →
    List (String × List FileEntry)
  | [], h, f => [(h, [f])]
  | (k, fs) :: rest, h, f =>
    if k = h then (k, fs ++ [f]) :: rest
    else (k, fs) :: addToGroups rest h f

/-- Group the listing by content digest, skipping files whose digest is
empty (`if hash_value:`). -/
def buildGroups : List (String × List FileEntry) → List FileEntry →
    List (String × List FileEntry)
  | gs, [] => gs
  | gs, f :: rest =>
    let h := get_file_hash f
    if h = "" then buildGroups gs rest
    else buildGroups (addToGroups gs h f) rest

/-- The member list of the first group keyed `d` (`hash_to_files[d]`),
or `[]` when no such group exists. -/
def groupsOf (gs : List (String × List FileEntry)) (d : String) :
    List FileEntry :=
  match gs.find? (fun p => p.1 == d) with
  | some p => p.2
  | none => []

/-- Python string `<`: lexicographic comparison by code point. -/
def lexLt : List Char → List Char → Bool
  | [], [] => false
  | [], _ :: _ => true
  | _ :: _, [] => false
  | c :: cs, d :: ds =>
    if c.toNat < d.toNat then true
    else if d.toNat < c.toNat then false
    else lexLt cs ds

/-- Python string `<=` (for a total order, `s <= t` iff `not (t < s)`). -/
def pyStrLe (s t : String) : Bool := !lexLt t.toList s.toList

/-- Stable insertion of a file into a name-sorted list
(`filepaths.sort(key=lambda p: p.name)`). -/
def insertByName (f : FileEntry) : List FileEntry → List FileEntry
  | [] => [f]
  | g :: rest =>
    if pyStrLe f.name g.name then f :: g :: rest else g :: insertByName f rest

/-- Sort a digest group by filename. -/
def sortByName : List FileEntry → List FileEntry
  | [] => []
  | f :: rest => insertByName f (sortByName rest)

/-- Files a digest group marks for deletion: everything after the
name-sorted head, when the group has more than one member. -/
def groupDeletions (fs : List FileEntry) : List FileEntry :=
  if 1 < fs.length then (sortByName fs).tail else []

/-- All files the duplicate-content sweep attempts to delete. -/
def contentDeletions (files : List FileEntry) : List FileEntry :=
  (buildGroups [] files).flatMap (fun g => groupDeletions g.2)

/-- Names actually deleted by the sweep: each deletion is wrapped in its
own `try`/`except`, so a failing unlink removes nothing and the loop
continues. -/
def contentDeletedNames (files : List FileEntry) : List String :=
  ((contentDeletions files).filter (fun f => f.unlinkOk)).map (fun f => f.name)

/-- `remove_duplicate_content_files`: the duplicate-content sweep. -/
def remove_duplicate_content_files (files : List FileEntry) : List FileEntry :=
  files.filter (fun f => !(contentDeletedNames files).contains f.name)

/-! ### Invalid-artifact sweep (`remove_non_pdf_files`) -/

/-- The `check_pdf` closure of `verify_pdf_file_async`: reject files whose
read raises, files smaller than 100 bytes, and files whose first bytes do
not start with `%PDF` (both version branches return `True`). -/
def check_pdf (f : FileEntry) : Bool :=
  f.readOk && decide (100 ≤ f.content.length) && f.content.take 4 == pdfMagic

/-- `remove_non_pdf_files`: deletes every file failing `check_pdf`; each
deletion has its own `try`/`except`, so a failing unlink leaves the file
in place and the sweep continues. -/
def remove_non_pdf_files (files : List FileEntry) : List FileEntry :=
  files.filter (fun f => check_pdf f || !f.unlinkOk)

/-! ### Download worker (`download_pdf`) -/

/-- Result of one `session.get` inside the retry loop: a response with a
status and a body, a timeout (`asyncio.TimeoutError`), or any other
transport exception. -/
inductive FetchResult where
  | resp (status : Nat) (body : Bytes)
  | timeoutErr
  | connErr
  deriving DecidableEq, Repr

/-- `max_retries = 3`. -/
def max_retries : Nat := 3

/-- `retry_delay = 1` (the backoff base). -/
def retry_delay : Nat := 1

/-- Observable outcome of one `download_pdf` invocation: the returned
`(filename, success, error_message)` triple plus instrumentation — the
number of fetches performed, the backoff delays slept (in order), and the
body written to disk, if any. -/
structure DLOutcome where
  filename : String
  success : Bool
  errMsg : String
  fetches : Nat
  sleeps : List Nat
  written : Option Bytes
  deriving DecidableEq, Repr

/-- The body-acceptance heuristic
`content.startswith(b'%PDF') or len(content) > 1000`. -/
def acceptBody (body : Bytes) : Bool :=
  body.take 4 == pdfMagic || decide (1000 < body.length)

/-- The duplicate-content check of `download_pdf`: some other on-disk file
has the same MD5 digest as the fetched body. -/
def diskHasDuplicate (disk : List FileEntry) (filename : String)
    (body : Bytes) : Bool :=
  disk.any (fun f => f.name != filename && get_file_hash f == md5hex body)

/-- The backoff delays slept after the first `k` failed attempts:
`retry_delay * (attempt + 1)` for attempts `0, …, k-1`. -/
def delays (k : Nat) : List Nat :=
  (List.range k).map (fun i => retry_delay * (i + 1))

/-- The `for attempt in range(max_retries)` loop of `download_pdf`.
`fetch i` is the result of the `session.get` on attempt `i` (0-based);
`fuel` counts the remaining iterations, so the loop is entered with
`fuel = max_retries`.  The `fuel = 0` clause is the `return` after the
loop (`"Max retries exceeded"`), unreachable on the paths the code takes. -/
def downloadGo (fetch : Nat → FetchResult) (filename : String)
    (disk : List FileEntry) :
    Nat → Nat → Nat → List Nat → DLOutcome
  | 0, _, fc, sleeps => ⟨filename, false, "Max retries exceeded", fc, sleeps, none⟩
  | fuel + 1, attempt, fc, sleeps =>
    match fetch attempt with
    | .resp status body =>
      if status = 200 then
        if acceptBody body then
          if diskHasDuplicate disk filename body then
            ⟨filename, false, "既存ファイルと内容が同じ", fc + 1, sleeps, none⟩
          else
            ⟨filename, true, "", fc + 1, sleeps, some body⟩
        else
          ⟨filename, false, "Invalid PDF content", fc + 1, sleeps, none⟩
      else if attempt < max_retries - 1 then
        downloadGo fetch filename disk fuel (attempt + 1) (fc + 1)
          (sleeps ++ [retry_delay * (attempt + 1)])
      else ⟨filename, false, "HTTP " ++ toString status, fc + 1, sleeps, none⟩
    | .timeoutErr =>
      if attempt < max_retries - 1 then
        downloadGo fetch filename disk fuel (attempt + 1) (fc + 1)
          (sleeps ++ [retry_delay * (attempt + 1)])
      else ⟨filename, false, "Timeout", fc + 1, sleeps, none⟩
    | .connErr =>
      if attempt < max_retries - 1 then
        downloadGo fetch filename disk fuel (attempt + 1) (fc + 1)
          (sleeps ++ [retry_delay * (attempt + 1)])
      else ⟨filename, false, "Error", fc + 1, sleeps, none⟩

/-- `download_pdf`: skip if the filename is already committed, otherwise
run the bounded-retry fetch loop against the current on-disk set. -/
def download_pdf (fetch : Nat → FetchResult) (filename : String)
    (existing_files : List String) (disk : List FileEntry) : DLOutcome :=
  if filename ∈ existing_files then
    ⟨filename, false, "既に存在するファイル", 0, [], none⟩
  else downloadGo fetch filename disk max_retries 0 0 []

/-! ### Discovery: GitHub api-tree strategy
(`extract_pdf_urls_from_github_api`) -/

/-- The fixed branch probe order. -/
def branches : List String := ["main", "master", "gh-pages", "docs", "book"]

/-- The synthesized raw-content download URL
`https://raw.githubusercontent.com/{owner}/{repo}/{branch}/{path}`. -/
def rawUrl (owner repo branch path : String) : String :=
  "https://raw.githubusercontent.com/" ++ owner ++ "/" ++ repo ++ "/" ++
    branch ++ "/" ++ path

/-- Filename synthesis of the api-tree strategy: basename of the tree
path, falling back to the URL-hash name, then normalized. -/
def apiTreeFilename (urlHash : String → Nat) (raw_url path : String) :
    String :=
  let fn0 := basenameOf path
  let fn1 := if badName fn0 then hashName urlHash raw_url else fn0
  normalizeFilename fn1

/-- Candidate links emitted for one successful branch listing: one per
tree path ending `.pdf`, in tree order. -/
def treeCandidates (urlHash : String → Nat) (owner repo branch : String)
    (paths : List String) : List (String × String) :=
  paths.foldr (fun p acc =>
    if pyEndsWith p ".pdf" then
      (rawUrl owner repo branch p,
        apiTreeFilename urlHash (rawUrl owner repo branch p) p) :: acc
    else acc) []

/-- The branch loop: `fetchTree b = some paths` models a 200 response
whose JSON has a `tree` key (listing `paths`); `none` models any other
status, a missing `tree` key, or an exception — all of which fall through
to the next branch.  On the first success the loop emits that branch's
candidates and `break`s.  Also returns the branches probed, in order. -/
def probeBranches (fetchTree : String → Option (List String))
    (urlHash : String → Nat) (owner repo : String) :
    List String → List (String × String) × List String
  | [] => ([], [])
  | b :: rest =>
    match fetchTree b with
    | some paths => (treeCandidates urlHash owner repo b paths, [b])
    | none =>
      let r := probeBranches fetchTree urlHash owner repo rest
      (r.1, b :: r.2)

/-- `extract_pdf_urls_from_github_api`, for an owner/repo pair. -/
def extract_pdf_urls_from_github_api
    (fetchTree : String → Option (List String)) (urlHash : String → Nat)
    (owner repo : String) : List (String × String) × List String :=
  probeBranches fetchTree urlHash owner repo branches

/-! ### Discovery: filename synthesis of the html and markdown strategies -/

/-- Filename synthesis of the html strategy's anchor loop: basename of
the URL path; when degenerate, the anchor's visible text (already
stripped by `get_text(strip=True)`) if longer than 3 characters, else the
URL-hash name; then normalized. -/
def htmlAnchorFilename (urlHash : String → Nat) (full_url link_text : String) :
    String :=
  let fn0 := basenameOf (urlPath full_url)
  let fn1 :=
    if badName fn0 then
      if link_text != "" && decide (3 < link_text.length) then
        cleanTitle link_text ++ ".pdf"
      else hashName urlHash full_url
    else fn0
  normalizeFilename fn1

/-- Filename synthesis of the html strategy's second (raw-content) loop:
basename of the URL path with URL-hash fallback, no text step. -/
def htmlRawFilename (urlHash : String → Nat) (href : String) : String :=
  let fn0 := basenameOf (urlPath href)
  let fn1 := if badName fn0 then hashName urlHash href else fn0
  normalizeFilename fn1

/-- Filename synthesis of the markdown strategy's inline-link rule: the
cleaned link title when nonempty, else basename of the URL path; when the
result is degenerate, basename of the URL path or (if that is empty) the
URL-hash name; then normalized. -/
def markdownInlineFilename (urlHash : String → Nat) (full_url title : String) :
    String :=
  let t := cleanTitle title
  let fn0 := if t != "" then t ++ ".pdf" else basenameOf (urlPath full_url)
  let fn1 :=
    if badName fn0 then
      (if basenameOf (urlPath full_url) != "" then basenameOf (urlPath full_url)
       else hashName urlHash full_url)
    else fn0
  normalizeFilename fn1

/-- Filename synthesis of the markdown strategy's bare-URL rule: basename
of the URL path with URL-hash fallback, no text step. -/
def markdownDirectFilename (urlHash : String → Nat) (pdf_url : String) :
    String :=
  let fn0 := basenameOf (urlPath pdf_url)
  let fn1 := if badName fn0 then hashName urlHash pdf_url else fn0
  normalizeFilename fn1

/-! ### URL deduplication (`collect_pdf_urls_from_sources` / `main_async`) -/

/-- The `seen_urls` loop: keep a pair when its URL has not been seen. -/
def dedupByUrl : List (String × String) → List String → List (String × String)
  | [], _ => []
  | (u, f) :: rest, seen =>
    if u ∈ seen then dedupByUrl rest seen
    else (u, f) :: dedupByUrl rest (u :: seen)

/-- URL deduplication as performed on the aggregated discovery results and
on the merged seed-plus-collected list. -/
def dedup_urls (l : List (String × String)) : List (String × String) :=
  dedupByUrl l []

/-! ### Concurrency budget (`asyncio.Semaphore(concurrency)`) -/

/-- The concurrency budget used at every phase (`concurrency: int = 128`). -/
def concurrencyBudget : Nat := 128

/-- State of one `asyncio.Semaphore`: its internal counter and the number
of tasks currently inside their `async with semaphore:` block. -/
structure SemState where
  value : Nat
  holders : Nat
  deriving DecidableEq, Repr

/-- A freshly constructed `asyncio.Semaphore(128)`. -/
def semInit : SemState := ⟨concurrencyBudget, 0⟩

/-- Transitions of the semaphore.  `acquire` fires only when the counter
is positive (otherwise the task suspends); `release` fires only from a
task that holds a permit — `async with` scoping guarantees each release is
paired with a prior acquire on every exit path. -/
inductive SemStep : SemState → SemState → Prop
  | acquire (s : SemState) : 0 < s.value →
      SemStep s ⟨s.value - 1, s.holders + 1⟩
  | release (s : SemState) : 0 < s.holders →
      SemStep s ⟨s.value + 1, s.holders - 1⟩

/-- States reachable from a freshly constructed semaphore by any
interleaving of scoped acquisitions and releases. -/
inductive SemReachable : SemState → Prop
  | init : SemReachable semInit
  | step {s t : SemState} : SemReachable s → SemStep s t → SemReachable t

/-! ## Theorems -/

/-! ### C8: the concurrency budget -/

theorem semReachable_inv {s : SemState} (h : SemReachable s) :
    s.value + s.holders = concurrencyBudget := by
  induction h with
  | init => rfl
  | step _ hstep ih =>
    cases hstep with
    | acquire hv => dsimp only at ih ⊢; omega
    | release hh => dsimp only at ih ⊢; omega

/-- C8: across every phase, the number of acquired-but-not-yet-released
permits of the 128-capacity semaphore never exceeds 128: every state
reachable by scoped acquisitions and releases has `holders ≤ 128`. -/
theorem spec_C8 {s : SemState} (h : SemReachable s) :
    s.holders ≤ concurrencyBudget := by
  have := semReachable_inv h
  omega

theorem spec_C8_witness : (SemState.mk 127 1).holders ≤ concurrencyBudget :=
  spec_C8 (SemReachable.step SemReachable.init
    (SemStep.acquire semInit (by decide)))

/-! ### C9: URL deduplication -/

theorem dedupByUrl_sublist :
    ∀ (l : List (String × String)) (seen : List String),
      (dedupByUrl l seen).Sublist l := by
  intro l
  induction l with
  | nil => intro seen; simp [dedupByUrl]
  | cons p rest ih =>
    intro seen
    obtain ⟨u, f⟩ := p
    rw [dedupByUrl]
    split
    · exact (ih seen).cons _
    · exact (ih _).cons₂ _

theorem dedupByUrl_filter (u : String) :
    ∀ (l : List (String × String)) (seen : List String),
      (dedupByUrl l seen).filter (fun p => p.1 == u) =
        if u ∈ seen then [] else (l.find? (fun p => p.1 == u)).toList := by
  intro l
  induction l with
  | nil => intro seen; simp [dedupByUrl]
  | cons p rest ih =>
    intro seen
    obtain ⟨v, g⟩ := p
    rw [dedupByUrl]
    rcases eq_or_ne v u with rfl | hvu
    · by_cases hu : v ∈ seen
      · rw [if_pos hu, ih seen, if_pos hu, if_pos hu]
      · rw [if_neg hu]
        have hp : (v == v) = true := by simp
        simp only [List.filter_cons, hp, if_true]
        rw [ih (v :: seen), if_pos (List.mem_cons_self v seen), if_neg hu]
        simp [List.find?]
    · have hb : (v == u) = false := beq_eq_false_iff_ne.mpr hvu
      by_cases hv : v ∈ seen
      · rw [if_pos hv, ih seen]
        by_cases hu : u ∈ seen
        · rw [if_pos hu, if_pos hu]
        · rw [if_neg hu, if_neg hu]
          simp [List.find?, hb]
      · rw [if_neg hv]
        simp only [List.filter_cons, hb, Bool.false_eq_true, if_false]
        rw [ih (v :: seen)]
        by_cases hu : u ∈ seen
        · rw [if_pos (List.mem_cons_of_mem v hu), if_pos hu]
        · have hnc : u ∉ v :: seen := by
            intro hmem
            rcases List.mem_cons.mp hmem with h | h
            · exact hvu h.symm
            · exact hu h
          rw [if_neg hnc, if_neg hu]
          simp [List.find?, hb]

/-- C9: URL deduplication keeps, for every URL, exactly the first
(URL, filename) pair in list order, is order-preserving (the result is a
sublist of the input), and on the merged seed-plus-collected list a URL
occurring both in the seeds and in the discovery results keeps the seed
pair's filename. -/
theorem spec_C9 (seeds coll : List (String × String)) (u fn : String)
    (hseed : seeds.find? (fun p => p.1 == u) = some (u, fn)) :
    (dedup_urls (seeds ++ coll)).Sublist (seeds ++ coll) ∧
    (∀ (l : List (String × String)) (w : String),
      (dedup_urls l).filter (fun p => p.1 == w) =
        (l.find? (fun p => p.1 == w)).toList) ∧
    (dedup_urls (seeds ++ coll)).filter (fun p => p.1 == u) = [(u, fn)] := by
  refine ⟨dedupByUrl_sublist _ _, fun l w => ?_, ?_⟩
  · simpa using dedupByUrl_filter w l []
  · rw [dedup_urls]
    have h := dedupByUrl_filter u (seeds ++ coll) []
    rw [if_neg (List.not_mem_nil u)] at h
    rw [h, List.find?_append, hseed]
    rfl

theorem spec_C9_witness :
    (dedup_urls ([("u", "seed.pdf")] ++ [("u", "disc.pdf")])).filter
      (fun p => p.1 == "u") = [("u", "seed.pdf")] :=
  (spec_C9 [("u", "seed.pdf")] [("u", "disc.pdf")] "u" "seed.pdf"
    (by rfl)).2.2

/-! ### C1 and C2: the download worker -/

theorem downloadGo_written_accepted (fetch : Nat → FetchResult) (fn : String)
    (disk : List FileEntry) :
    ∀ (fuel attempt fc : Nat) (sleeps : List Nat) (b : Bytes),
      (downloadGo fetch fn disk fuel attempt fc sleeps).written = some b →
      acceptBody b = true := by
  intro fuel
  induction fuel with
  | zero => intro attempt fc sleeps b h; simp [downloadGo] at h
  | succ fuel ih =>
    intro attempt fc sleeps b h
    rw [downloadGo] at h
    cases hf : fetch attempt with
    | resp status body =>
      rw [hf] at h
      dsimp only at h
      by_cases hs : status = 200
      · rw [if_pos hs] at h
        by_cases ha : acceptBody body = true
        · rw [if_pos ha] at h
          by_cases hd : diskHasDuplicate disk fn body = true
          · rw [if_pos hd] at h; simp at h
          · rw [if_neg hd] at h
            simp only [Option.some.injEq] at h
            rwa [← h]
        · rw [if_neg ha] at h; simp at h
      · rw [if_neg hs] at h
        by_cases hr : attempt < max_retries - 1
        · rw [if_pos hr] at h; exact ih _ _ _ _ h
        · rw [if_neg hr] at h; simp at h
    | timeoutErr =>
      rw [hf] at h
      dsimp only at h
      by_cases hr : attempt < max_retries - 1
      · rw [if_pos hr] at h; exact ih _ _ _ _ h
      · rw [if_neg hr] at h; simp at h
    | connErr =>
      rw [hf] at h
      dsimp only at h
      by_cases hr : attempt < max_retries - 1
      · rw [if_pos hr] at h; exact ih _ _ _ _ h
      · rw [if_neg hr] at h; simp at h

/-- C1: a body fetched with HTTP 200 is committed only when it begins with
the `%PDF` signature or is longer than 1000 bytes; with a 200 status and a
body meeting neither criterion, the worker reports a failed outcome, writes
no file, and does not retry. -/
theorem spec_C1 (fetch : Nat → FetchResult) (filename : String)
    (existing_files : List String) (disk : List FileEntry) :
    (∀ b : Bytes,
      (download_pdf fetch filename existing_files disk).written = some b →
      acceptBody b = true) ∧
    (∀ body : Bytes, filename ∉ existing_files →
      fetch 0 = .resp 200 body → acceptBody body = false →
      (download_pdf fetch filename existing_files disk).success = false ∧
      (download_pdf fetch filename existing_files disk).written = none ∧
      (download_pdf fetch filename existing_files disk).errMsg =
        "Invalid PDF content" ∧
      (download_pdf fetch filename existing_files disk).fetches = 1) := by
  constructor
  · intro b h
    rw [download_pdf] at h
    by_cases he : filename ∈ existing_files
    · rw [if_pos he] at h; simp at h
    · rw [if_neg he] at h
      exact downloadGo_written_accepted fetch filename disk _ _ _ _ _ h
  · intro body he h0 hbad
    rw [download_pdf, if_neg he]
    rw [show max_retries = 2 + 1 from rfl, downloadGo, h0]
    simp [hbad]

theorem spec_C1_witness :
    (download_pdf (fun _ => .resp 200 [1, 2, 3]) "a.pdf" [] []).success =
        false ∧
      (download_pdf (fun _ => .resp 200 [1, 2, 3]) "a.pdf" [] []).written =
        none := by
  have h := (spec_C1 (fun _ => .resp 200 [1, 2, 3]) "a.pdf" [] []).2
    [1, 2, 3] (by simp) rfl (by decide)
  exact ⟨h.1, h.2.1⟩

theorem delays_succ (n : Nat) :
    delays (n + 1) = delays n ++ [retry_delay * (n + 1)] := by
  simp [delays, List.range_succ]

theorem downloadGo_retry_step (fetch : Nat → FetchResult) (fn : String)
    (disk : List FileEntry) (fuel attempt fc : Nat) (sleeps : List Nat)
    (status : Nat) (body : Bytes)
    (hf : fetch attempt = .resp status body) (hs : status ≠ 200)
    (hr : attempt < max_retries - 1) :
    downloadGo fetch fn disk (fuel + 1) attempt fc sleeps =
      downloadGo fetch fn disk fuel (attempt + 1) (fc + 1)
        (sleeps ++ [retry_delay * (attempt + 1)]) := by
  rw [downloadGo, hf]
  dsimp only
  rw [if_neg hs, if_pos hr]

theorem downloadGo_accept_step (fetch : Nat → FetchResult) (fn : String)
    (disk : List FileEntry) (fuel attempt fc : Nat) (sleeps : List Nat)
    (body : Bytes) (hf : fetch attempt = .resp 200 body)
    (ha : acceptBody body = true)
    (hd : diskHasDuplicate disk fn body = false) :
    downloadGo fetch fn disk (fuel + 1) attempt fc sleeps =
      ⟨fn, true, "", fc + 1, sleeps, some body⟩ := by
  rw [downloadGo, hf]
  dsimp only
  rw [if_pos rfl, if_pos ha, if_neg (by simp [hd])]

theorem downloadGo_bounds (fetch : Nat → FetchResult) (fn : String)
    (disk : List FileEntry) :
    ∀ (fuel attempt fc : Nat), attempt + fuel = max_retries →
      attempt ≤ max_retries - 1 →
      ∃ k, k ≤ max_retries - 1 ∧
        (downloadGo fetch fn disk fuel attempt fc (delays attempt)).sleeps =
          delays k ∧
        (downloadGo fetch fn disk fuel attempt fc (delays attempt)).fetches ≤
          fc + fuel := by
  intro fuel
  induction fuel with
  | zero =>
    intro attempt fc h hat
    exfalso
    rw [show max_retries = 3 from rfl] at h hat
    omega
  | succ fuel ih =>
    intro attempt fc h hat
    rw [downloadGo]
    cases hf : fetch attempt with
    | resp status body =>
      dsimp only
      by_cases hs : status = 200
      · rw [if_pos hs]
        by_cases ha : acceptBody body = true
        · rw [if_pos ha]
          by_cases hd : diskHasDuplicate disk fn body = true
          · rw [if_pos hd]; exact ⟨attempt, hat, rfl, by dsimp only; omega⟩
          · rw [if_neg hd]; exact ⟨attempt, hat, rfl, by dsimp only; omega⟩
        · rw [if_neg ha]; exact ⟨attempt, hat, rfl, by dsimp only; omega⟩
      · rw [if_neg hs]
        by_cases hr : attempt < max_retries - 1
        · rw [if_pos hr, ← delays_succ]
          obtain ⟨k, hk, hsl, hfc⟩ := ih (attempt + 1) (fc + 1)
            (by omega) (by omega)
          exact ⟨k, hk, hsl, by omega⟩
        · rw [if_neg hr]; exact ⟨attempt, hat, rfl, by dsimp only; omega⟩
    | timeoutErr =>
      dsimp only
      by_cases hr : attempt < max_retries - 1
      · rw [if_pos hr, ← delays_succ]
        obtain ⟨k, hk, hsl, hfc⟩ := ih (attempt + 1) (fc + 1)
          (by omega) (by omega)
        exact ⟨k, hk, hsl, by omega⟩
      · rw [if_neg hr]; exact ⟨attempt, hat, rfl, by dsimp only; omega⟩
    | connErr =>
      dsimp only
      by_cases hr : attempt < max_retries - 1
      · rw [if_pos hr, ← delays_succ]
        obtain ⟨k, hk, hsl, hfc⟩ := ih (attempt + 1) (fc + 1)
          (by omega) (by omega)
        exact ⟨k, hk, hsl, by omega⟩
      · rw [if_neg hr]; exact ⟨attempt, hat, rfl, by dsimp only; omega⟩

/-- C2: every invocation of the download worker performs at most 3 fetch
attempts and sleeps the strictly increasing delays `retry_delay * 1,
retry_delay * 2, …` between consecutive attempts; and in the scenario
where attempts 1 and 2 return HTTP 500 and attempt 3 returns 200 with a
`%PDF` body, the worker succeeds after exactly 3 fetches, having slept
the two strictly increasing backoff delays. -/
theorem spec_C2 (fetch : Nat → FetchResult) (filename : String)
    (existing_files : List String) (disk : List FileEntry)
    (b0 b1 body : Bytes) (he : filename ∉ existing_files)
    (h0 : fetch 0 = .resp 500 b0) (h1 : fetch 1 = .resp 500 b1)
    (h2 : fetch 2 = .resp 200 body) (hsig : body.take 4 = pdfMagic)
    (hdup : diskHasDuplicate disk filename body = false) :
    (∀ (g : Nat → FetchResult) (fn : String) (ex : List String)
        (d : List FileEntry),
      (download_pdf g fn ex d).fetches ≤ max_retries ∧
      ∃ k, k ≤ max_retries - 1 ∧
        (download_pdf g fn ex d).sleeps = delays k ∧
        List.Chain' (· < ·) (download_pdf g fn ex d).sleeps) ∧
    (download_pdf fetch filename existing_files disk).success = true ∧
    (download_pdf fetch filename existing_files disk).fetches = 3 ∧
    (download_pdf fetch filename existing_files disk).sleeps =
      [retry_delay * 1, retry_delay * 2] := by
  have haccept : acceptBody body = true := by
    simp [acceptBody, hsig]
  constructor
  · intro g fn ex d
    rw [download_pdf]
    by_cases hex : fn ∈ ex
    · rw [if_pos hex]
      refine ⟨by dsimp only; decide, 0, by decide, rfl, by dsimp only; decide⟩
    · rw [if_neg hex]
      obtain ⟨k, hk, hsl, hfc⟩ :=
        downloadGo_bounds g fn d max_retries 0 0 (by decide) (by decide)
      have hsl2 : (downloadGo g fn d max_retries 0 0 []).sleeps = delays k :=
        hsl
      have hfc2 : (downloadGo g fn d max_retries 0 0 []).fetches ≤
          max_retries := by simpa using hfc
      refine ⟨hfc2, k, hk, hsl2, ?_⟩
      rw [hsl2]
      have hk2 : k ≤ 2 := by simpa using hk
      interval_cases k <;>
        simp [delays, List.range_succ, List.chain'_cons, List.chain'_singleton,
          retry_delay]
  · have e : download_pdf fetch filename existing_files disk =
        ⟨filename, true, "", 3, [retry_delay * 1, retry_delay * 2],
          some body⟩ := by
      rw [download_pdf, if_neg he]
      exact (downloadGo_retry_step fetch filename disk 2 0 0 [] 500 b0 h0
          (by decide) (by decide)).trans
        ((downloadGo_retry_step fetch filename disk 1 1 1 [retry_delay * 1]
            500 b1 h1 (by decide) (by decide)).trans
          (downloadGo_accept_step fetch filename disk 0 2 2
            [retry_delay * 1, retry_delay * 2] body h2 haccept hdup))
    rw [e]
    exact ⟨rfl, rfl, rfl⟩

theorem spec_C2_witness :
    (download_pdf
        (fun i => if i = 0 then .resp 500 [] else
          if i = 1 then .resp 500 [] else .resp 200 pdfMagic)
        "a.pdf" [] []).success = true ∧
      (download_pdf
        (fun i => if i = 0 then .resp 500 [] else
          if i = 1 then .resp 500 [] else .resp 200 pdfMagic)
        "a.pdf" [] []).fetches = 3 ∧
      (download_pdf
        (fun i => if i = 0 then .resp 500 [] else
          if i = 1 then .resp 500 [] else .resp 200 pdfMagic)
        "a.pdf" [] []).sleeps = [retry_delay * 1, retry_delay * 2] :=
  (spec_C2
    (fun i => if i = 0 then .resp 500 [] else
      if i = 1 then .resp 500 [] else .resp 200 pdfMagic)
    "a.pdf" [] [] [] [] pdfMagic (by simp) rfl rfl rfl (by decide) rfl).2

/-! ### C5: api-tree branch probing -/

/-- C5: branches are probed in the fixed order; when `main` fails and
`master` yields a tree containing exactly `docs/spec.pdf`, the strategy
emits exactly one candidate with the synthesized master raw URL, and the
later branches `gh-pages`, `docs`, `book` are never attempted. -/
theorem spec_C5 (fetchTree : String → Option (List String))
    (urlHash : String → Nat) (owner repo : String)
    (hmain : fetchTree "main" = none)
    (hmaster : fetchTree "master" = some ["docs/spec.pdf"]) :
    (extract_pdf_urls_from_github_api fetchTree urlHash owner repo).1 =
      [(rawUrl owner repo "master" "docs/spec.pdf", "spec.pdf")] ∧
    (extract_pdf_urls_from_github_api fetchTree urlHash owner repo).2 =
      ["main", "master"] := by
  have hfile : apiTreeFilename urlHash
      (rawUrl owner repo "master" "docs/spec.pdf") "docs/spec.pdf" =
      "spec.pdf" := by
    simp only [apiTreeFilename]
    rw [show basenameOf "docs/spec.pdf" = "spec.pdf" from by decide]
    rw [if_neg (show ¬badName "spec.pdf" = true from by decide)]
    decide
  have ht : treeCandidates urlHash owner repo "master" ["docs/spec.pdf"] =
      [(rawUrl owner repo "master" "docs/spec.pdf", "spec.pdf")] := by
    simp only [treeCandidates, List.foldr_cons, List.foldr_nil]
    rw [if_pos (show pyEndsWith "docs/spec.pdf" ".pdf" = true from by decide),
      hfile]
  rw [extract_pdf_urls_from_github_api, branches]
  rw [probeBranches, hmain]
  dsimp only
  rw [probeBranches, hmaster]
  dsimp only
  exact ⟨ht, rfl⟩

theorem spec_C5_witness :
    (extract_pdf_urls_from_github_api
        (fun b => if b = "master" then some ["docs/spec.pdf"] else none)
        (fun _ => 0) "octo" "books").1 =
      [("https://raw.githubusercontent.com/octo/books/master/docs/spec.pdf",
        "spec.pdf")] ∧
    (extract_pdf_urls_from_github_api
        (fun b => if b = "master" then some ["docs/spec.pdf"] else none)
        (fun _ => 0) "octo" "books").2 = ["main", "master"] := by
  have h := spec_C5
    (fun b => if b = "master" then some ["docs/spec.pdf"] else none)
    (fun _ => 0) "octo" "books" rfl rfl
  exact ⟨h.1, h.2⟩

/-! ### The duplicate-content sweep: grouping lemmas for C6 and C10 -/

theorem md5hex_ne_empty (bs : Bytes) : md5hex bs ≠ "" := by
  intro h
  have h2 := congrArg String.length h
  rw [md5hex, String.length_append] at h2
  have e1 : "md5:".length = 4 := rfl
  have e2 : String.length "" = 0 := rfl
  rw [e1, e2] at h2
  omega

theorem addToGroups_groupsOf :
    ∀ (gs : List (String × List FileEntry)) (h : String) (f : FileEntry)
      (d : String),
      groupsOf (addToGroups gs h f) d =
        groupsOf gs d ++ if d = h then [f] else [] := by
  intro gs
  induction gs with
  | nil =>
    intro h f d
    by_cases hd : d = h
    · subst hd; simp [addToGroups, groupsOf, List.find?]
    · have : (h == d) = false := beq_eq_false_iff_ne.mpr (fun e => hd e.symm)
      simp [addToGroups, groupsOf, List.find?, this, hd]
  | cons q rest ih =>
    intro h f d
    obtain ⟨k, fs⟩ := q
    rw [addToGroups]
    by_cases hk : k = h
    · subst hk
      by_cases hd : d = k
      · subst hd
        simp [groupsOf, List.find?]
      · have hb : (k == d) = false := beq_eq_false_iff_ne.mpr
          (fun e => hd e.symm)
        simp [groupsOf, List.find?, hb, hd]
    · rw [if_neg hk]
      by_cases hd : d = k
      · subst hd
        have : d ≠ h := hk
        simp [groupsOf, List.find?, this]
      · have hb : (k == d) = false := beq_eq_false_iff_ne.mpr
          (fun e => hd e.symm)
        have h1 : groupsOf ((k, fs) :: addToGroups rest h f) d =
            groupsOf (addToGroups rest h f) d := by
          simp [groupsOf, List.find?, hb]
        have h2 : groupsOf ((k, fs) :: rest) d = groupsOf rest d := by
          simp [groupsOf, List.find?, hb]
        rw [h1, h2, ih]

theorem buildGroups_groupsOf :
    ∀ (files : List FileEntry) (gs : List (String × List FileEntry))
      (d : String), d ≠ "" →
      groupsOf (buildGroups gs files) d =
        groupsOf gs d ++ files.filter (fun f => get_file_hash f == d) := by
  intro files
  induction files with
  | nil => intro gs d _; simp [buildGroups]
  | cons f rest ih =>
    intro gs d hd
    rw [buildGroups]
    by_cases hf : get_file_hash f = ""
    · rw [if_pos hf, ih gs d hd, List.filter_cons]
      have : (get_file_hash f == d) = false := by
        rw [hf]; exact beq_eq_false_iff_ne.mpr (fun e => hd e.symm)
      simp [this]
    · rw [if_neg hf, ih _ d hd, addToGroups_groupsOf, List.filter_cons]
      by_cases hfd : get_file_hash f = d
      · have hb : (get_file_hash f == d) = true := beq_iff_eq.mpr hfd
        simp [hb, hfd.symm, List.append_assoc]
      · have hb : (get_file_hash f == d) = false := beq_eq_false_iff_ne.mpr hfd
        have : d ≠ get_file_hash f := fun e => hfd e.symm
        simp [hb, this]

theorem addToGroups_keys (h : String) (f : FileEntry) :
    ∀ gs : List (String × List FileEntry),
      (addToGroups gs h f).map Prod.fst =
        if h ∈ gs.map Prod.fst then gs.map Prod.fst
        else gs.map Prod.fst ++ [h] := by
  intro gs
  induction gs with
  | nil => simp [addToGroups]
  | cons q rest ih =>
    obtain ⟨k, fs⟩ := q
    rw [addToGroups]
    by_cases hk : k = h
    · subst hk
      simp [List.map_cons]
    · rw [if_neg hk]
      simp only [List.map_cons, ih]
      by_cases hmem : h ∈ rest.map Prod.fst
      · rw [if_pos hmem, if_pos (by simp [hmem])]
      · have hni : ¬h ∈ ((k, fs).1 :: rest.map Prod.fst) := by
          simp only [List.mem_cons]
          rintro (e | e)
          · exact hk e.symm
          · exact hmem e
        rw [if_neg hmem, if_neg hni, List.cons_append]

theorem buildGroups_keys_nodup :
    ∀ (files : List FileEntry) (gs : List (String × List FileEntry)),
      (gs.map Prod.fst).Nodup → ((buildGroups gs files).map Prod.fst).Nodup := by
  intro files
  induction files with
  | nil => intro gs h; simpa [buildGroups] using h
  | cons f rest ih =>
    intro gs h
    rw [buildGroups]
    by_cases hf : get_file_hash f = ""
    · rw [if_pos hf]; exact ih gs h
    · rw [if_neg hf]
      refine ih _ ?_
      rw [addToGroups_keys]
      by_cases hmem : get_file_hash f ∈ gs.map Prod.fst
      · rwa [if_pos hmem]
      · rw [if_neg hmem, List.nodup_append]
        refine ⟨h, List.nodup_singleton _, fun x hx hx' => ?_⟩
        simp only [List.mem_singleton] at hx'
        subst hx'
        exact hmem hx

theorem mem_groupsOf :
    ∀ (gs : List (String × List FileEntry)) (p : String × List FileEntry),
      (gs.map Prod.fst).Nodup → p ∈ gs → groupsOf gs p.1 = p.2 := by
  intro gs
  induction gs with
  | nil => intro p _ hp; simp at hp
  | cons q rest ih =>
    intro p hnd hp
    obtain ⟨k, fs⟩ := q
    rcases List.mem_cons.mp hp with rfl | hp'
    · simp [groupsOf, List.find?]
    · have hkp : k ≠ p.1 := by
        intro e
        have : p.1 ∈ rest.map Prod.fst := List.mem_map_of_mem _ hp'
        rw [← e] at this
        exact (List.nodup_cons.mp (by simpa using hnd)).1 this
      have hb : (k == p.1) = false := beq_eq_false_iff_ne.mpr hkp
      have : groupsOf ((k, fs) :: rest) p.1 = groupsOf rest p.1 := by
        simp [groupsOf, List.find?, hb]
      rw [this]
      exact ih p (by simpa using (List.nodup_cons.mp (by simpa using hnd)).2) hp'

theorem groupsOf_exists (gs : List (String × List FileEntry)) (d : String)
    (h : groupsOf gs d ≠ []) :
    ∃ p ∈ gs, p.1 = d ∧ p.2 = groupsOf gs d := by
  cases hf : gs.find? (fun p => p.1 == d) with
  | none =>
    exfalso
    apply h
    rw [groupsOf, hf]
  | some p =>
    have hg : groupsOf gs d = p.2 := by rw [groupsOf, hf]
    refine ⟨p, List.mem_of_find?_eq_some hf, ?_, hg.symm⟩
    have := List.find?_some hf
    simpa using this

theorem addToGroups_member :
    ∀ (gs : List (String × List FileEntry)) (h : String) (f x : FileEntry)
      (p : String × List FileEntry),
      p ∈ addToGroups gs h f → x ∈ p.2 →
      (∃ q ∈ gs, x ∈ q.2) ∨ x = f := by
  intro gs
  induction gs with
  | nil =>
    intro h f x p hp hx
    simp [addToGroups] at hp
    subst hp
    simp at hx
    exact Or.inr hx
  | cons q rest ih =>
    intro h f x p hp hx
    obtain ⟨k, fs⟩ := q
    rw [addToGroups] at hp
    by_cases hk : k = h
    · rw [if_pos hk] at hp
      rcases List.mem_cons.mp hp with rfl | hp'
      · rcases List.mem_append.mp hx with hx' | hx'
        · exact Or.inl ⟨(k, fs), List.mem_cons_self _ _, hx'⟩
        · simp at hx'; exact Or.inr hx'
      · exact Or.inl ⟨p, List.mem_cons_of_mem _ hp', hx⟩
    · rw [if_neg hk] at hp
      rcases List.mem_cons.mp hp with rfl | hp'
      · exact Or.inl ⟨(k, fs), List.mem_cons_self _ _, hx⟩
      · rcases ih h f x p hp' hx with ⟨q', hq', hxq⟩ | he
        · exact Or.inl ⟨q', List.mem_cons_of_mem _ hq', hxq⟩
        · exact Or.inr he

theorem buildGroups_member :
    ∀ (files : List FileEntry) (gs : List (String × List FileEntry))
      (p : String × List FileEntry) (x : FileEntry),
      p ∈ buildGroups gs files → x ∈ p.2 →
      (∃ q ∈ gs, x ∈ q.2) ∨ x ∈ files := by
  intro files
  induction files with
  | nil =>
    intro gs p x hp hx
    rw [buildGroups] at hp
    exact Or.inl ⟨p, hp, hx⟩
  | cons f rest ih =>
    intro gs p x hp hx
    rw [buildGroups] at hp
    by_cases hf : get_file_hash f = ""
    · rw [if_pos hf] at hp
      rcases ih gs p x hp hx with h | h
      · exact Or.inl h
      · exact Or.inr (List.mem_cons_of_mem _ h)
    · rw [if_neg hf] at hp
      rcases ih _ p x hp hx with ⟨q, hq, hxq⟩ | h
      · rcases addToGroups_member gs _ f x q hq hxq with h' | rfl
        · exact Or.inl h'
        · exact Or.inr (List.mem_cons_self _ _)
      · exact Or.inr (List.mem_cons_of_mem _ h)

theorem addToGroups_member_key :
    ∀ (gs : List (String × List FileEntry)) (h : String) (f : FileEntry),
      (∀ p ∈ gs, ∀ x ∈ p.2, get_file_hash x = p.1) → get_file_hash f = h →
      ∀ p ∈ addToGroups gs h f, ∀ x ∈ p.2, get_file_hash x = p.1 := by
  intro gs
  induction gs with
  | nil =>
    intro h f _ hf p hp x hx
    simp [addToGroups] at hp
    subst hp
    simp at hx
    subst hx
    exact hf
  | cons q rest ih =>
    intro h f hinv hf p hp x hx
    obtain ⟨k, fs⟩ := q
    rw [addToGroups] at hp
    by_cases hk : k = h
    · rw [if_pos hk] at hp
      rcases List.mem_cons.mp hp with rfl | hp'
      · rcases List.mem_append.mp hx with hx' | hx'
        · exact hinv (k, fs) (List.mem_cons_self _ _) x hx'
        · simp at hx'
          subst hx'
          rw [hf, hk]
      · exact hinv p (List.mem_cons_of_mem _ hp') x hx
    · rw [if_neg hk] at hp
      rcases List.mem_cons.mp hp with rfl | hp'
      · exact hinv (k, fs) (List.mem_cons_self _ _) x hx
      · exact ih h f (fun r hr => hinv r (List.mem_cons_of_mem _ hr)) hf
          p hp' x hx

theorem buildGroups_member_key :
    ∀ (files : List FileEntry) (gs : List (String × List FileEntry)),
      (∀ p ∈ gs, ∀ x ∈ p.2, get_file_hash x = p.1) →
      ∀ p ∈ buildGroups gs files, ∀ x ∈ p.2, get_file_hash x = p.1 := by
  intro files
  induction files with
  | nil => intro gs hinv p hp; rw [buildGroups] at hp; exact hinv p hp
  | cons f rest ih =>
    intro gs hinv p hp
    rw [buildGroups] at hp
    by_cases hf : get_file_hash f = ""
    · rw [if_pos hf] at hp; exact ih gs hinv p hp
    · rw [if_neg hf] at hp
      exact ih _ (addToGroups_member_key gs _ f hinv rfl) p hp

theorem addToGroups_key_ne :
    ∀ (gs : List (String × List FileEntry)) (h : String) (f : FileEntry),
      (∀ p ∈ gs, p.1 ≠ "") → h ≠ "" →
      ∀ p ∈ addToGroups gs h f, p.1 ≠ "" := by
  intro gs
  induction gs with
  | nil =>
    intro h f _ hh p hp
    simp [addToGroups] at hp
    subst hp
    exact hh
  | cons q rest ih =>
    intro h f hinv hh p hp
    obtain ⟨k, fs⟩ := q
    rw [addToGroups] at hp
    by_cases hk : k = h
    · rw [if_pos hk] at hp
      rcases List.mem_cons.mp hp with rfl | hp'
      · exact hinv (k, fs) (List.mem_cons_self _ _)
      · exact hinv p (List.mem_cons_of_mem _ hp')
    · rw [if_neg hk] at hp
      rcases List.mem_cons.mp hp with rfl | hp'
      · exact hinv (k, fs) (List.mem_cons_self _ _)
      · exact ih h f (fun r hr => hinv r (List.mem_cons_of_mem _ hr)) hh p hp'

theorem buildGroups_key_ne :
    ∀ (files : List FileEntry) (gs : List (String × List FileEntry)),
      (∀ p ∈ gs, p.1 ≠ "") → ∀ p ∈ buildGroups gs files, p.1 ≠ "" := by
  intro files
  induction files with
  | nil => intro gs hinv p hp; rw [buildGroups] at hp; exact hinv p hp
  | cons f rest ih =>
    intro gs hinv p hp
    rw [buildGroups] at hp
    by_cases hf : get_file_hash f = ""
    · rw [if_pos hf] at hp; exact ih gs hinv p hp
    · rw [if_neg hf] at hp
      exact ih _ (addToGroups_key_ne gs _ f hinv hf) p hp

theorem lexLt_irrefl : ∀ l : List Char, lexLt l l = false := by
  intro l
  induction l with
  | nil => rfl
  | cons c rest ih => simp [lexLt, ih]

theorem lexLt_asymm :
    ∀ l m : List Char, lexLt l m = true → lexLt m l = false := by
  intro l
  induction l with
  | nil =>
    intro m h
    cases m with
    | nil => exact absurd h (by decide)
    | cons d ds => rfl
  | cons c cs ih =>
    intro m h
    cases m with
    | nil => simp [lexLt] at h
    | cons d ds =>
      rw [lexLt] at h ⊢
      by_cases hcd : c.toNat < d.toNat
      · rw [if_neg (by omega), if_pos hcd]
      · rw [if_neg hcd] at h
        by_cases hdc : d.toNat < c.toNat
        · rw [if_pos hdc] at h
          exact absurd h (by simp)
        · rw [if_neg hdc] at h
          rw [if_neg hdc, if_neg hcd]
          exact ih ds h

theorem insertByName_perm (f : FileEntry) :
    ∀ l : List FileEntry, (insertByName f l).Perm (f :: l) := by
  intro l
  induction l with
  | nil => simp [insertByName]
  | cons g rest ih =>
    rw [insertByName]
    by_cases h : pyStrLe f.name g.name = true
    · rw [if_pos h]
    · rw [if_neg h]
      exact (ih.cons g).trans (List.Perm.swap f g rest)

theorem sortByName_perm : ∀ l : List FileEntry, (sortByName l).Perm l := by
  intro l
  induction l with
  | nil => simp [sortByName]
  | cons f rest ih =>
    rw [sortByName]
    exact (insertByName_perm f (sortByName rest)).trans (ih.cons f)

theorem filter_eq_single_of_nodup {α : Type} [DecidableEq α]
    (p : α → Bool) :
    ∀ (l : List α) (b : α), l.Nodup → b ∈ l →
      (∀ x ∈ l, p x = true ↔ x = b) → l.filter p = [b] := by
  intro l
  induction l with
  | nil => intro b _ hb; simp at hb
  | cons x rest ih =>
    intro b hnd hb hp
    rw [List.filter_cons]
    by_cases hx : p x = true
    · have hxb : x = b := (hp x (List.mem_cons_self _ _)).mp hx
      subst hxb
      rw [if_pos hx]
      have : rest.filter p = [] := by
        rw [List.filter_eq_nil_iff]
        intro y hy hpy
        have : y = x := (hp y (List.mem_cons_of_mem _ hy)).mp hpy
        subst this
        exact (List.nodup_cons.mp hnd).1 hy
      rw [this]
    · rw [if_neg hx]
      have hxb : x ≠ b := fun e => hx ((hp x (List.mem_cons_self _ _)).mpr e)
      have hb' : b ∈ rest := by
        rcases List.mem_cons.mp hb with rfl | h
        · exact absurd rfl hxb
        · exact h
      exact ih b (List.nodup_cons.mp hnd).2 hb'
        (fun y hy => hp y (List.mem_cons_of_mem _ hy))

theorem filter_eq_pair_of_nodup {α : Type} [DecidableEq α] (p : α → Bool) :
    ∀ (l : List α) (a b : α), l.Nodup → a ∈ l → b ∈ l → a ≠ b →
      (∀ x ∈ l, p x = true ↔ (x = a ∨ x = b)) →
      l.filter p = [a, b] ∨ l.filter p = [b, a] := by
  intro l
  induction l with
  | nil => intro a b _ ha; simp at ha
  | cons x rest ih =>
    intro a b hnd ha hb hab hp
    rw [List.filter_cons]
    by_cases hx : p x = true
    · rcases (hp x (List.mem_cons_self _ _)).mp hx with rfl | rfl
      · rw [if_pos hx]
        have hb' : b ∈ rest := by
          rcases List.mem_cons.mp hb with rfl | h
          · exact absurd rfl hab.symm
          · exact h
        have : rest.filter p = [b] := by
          refine filter_eq_single_of_nodup p rest b
            (List.nodup_cons.mp hnd).2 hb' (fun y hy => ?_)
          rw [hp y (List.mem_cons_of_mem _ hy)]
          constructor
          · rintro (rfl | h)
            · exact absurd hy (List.nodup_cons.mp hnd).1
            · exact h
          · exact fun h => Or.inr h
        rw [this]
        exact Or.inl rfl
      · rw [if_pos hx]
        have ha' : a ∈ rest := by
          rcases List.mem_cons.mp ha with rfl | h
          · exact absurd rfl hab
          · exact h
        have : rest.filter p = [a] := by
          refine filter_eq_single_of_nodup p rest a
            (List.nodup_cons.mp hnd).2 ha' (fun y hy => ?_)
          rw [hp y (List.mem_cons_of_mem _ hy)]
          constructor
          · rintro (h | rfl)
            · exact h
            · exact absurd hy (List.nodup_cons.mp hnd).1
          · exact fun h => Or.inl h
        rw [this]
        exact Or.inr rfl
    · rw [if_neg hx]
      have hxa : x ≠ a := fun e => hx ((hp x (List.mem_cons_self _ _)).mpr
        (Or.inl e))
      have hxb : x ≠ b := fun e => hx ((hp x (List.mem_cons_self _ _)).mpr
        (Or.inr e))
      have ha' : a ∈ rest := by
        rcases List.mem_cons.mp ha with rfl | h
        · exact absurd rfl hxa
        · exact h
      have hb' : b ∈ rest := by
        rcases List.mem_cons.mp hb with rfl | h
        · exact absurd rfl hxb
        · exact h
      exact ih a b (List.nodup_cons.mp hnd).2 ha' hb' hab
        (fun y hy => hp y (List.mem_cons_of_mem _ hy))

theorem eq_of_name_eq :
    ∀ (l : List FileEntry) (x y : FileEntry),
      (l.map FileEntry.name).Nodup → x ∈ l → y ∈ l → x.name = y.name →
      x = y := by
  intro l
  induction l with
  | nil => intro x y _ hx; simp at hx
  | cons z rest ih =>
    intro x y hnd hx hy hname
    have hz : z.name ∉ rest.map FileEntry.name :=
      (List.nodup_cons.mp (by simpa using hnd)).1
    rcases List.mem_cons.mp hx with rfl | hx' <;>
      rcases List.mem_cons.mp hy with rfl | hy'
    · rfl
    · exact absurd (hname ▸ List.mem_map_of_mem _ hy') hz
    · exact absurd (hname ▸ List.mem_map_of_mem _ hx') hz
    · exact ih x y (List.nodup_cons.mp (by simpa using hnd)).2 hx' hy' hname

/-- C6: after the duplicate-content sweep, of two byte-identical on-disk
files exactly the lexicographically-first filename remains: the
lexicographically-later file is deleted and the earlier one survives. -/
theorem spec_C6 (files : List FileEntry) (a b : FileEntry)
    (ha : a ∈ files) (hb : b ∈ files)
    (hnames : (files.map FileEntry.name).Nodup)
    (hlt : lexLt a.name.toList b.name.toList = true)
    (hha : a.hashOk = true) (hhb : b.hashOk = true)
    (hcontent : a.content = b.content)
    (hub : b.unlinkOk = true)
    (hothers : ∀ f ∈ files, f ≠ a → f ≠ b →
      get_file_hash f ≠ get_file_hash a) :
    a ∈ remove_duplicate_content_files files ∧
    b ∉ remove_duplicate_content_files files := by
  have hdb : get_file_hash b = get_file_hash a := by
    simp [get_file_hash, hha, hhb, hcontent]
  have hdne : get_file_hash a ≠ "" := by
    rw [get_file_hash, if_pos hha]
    exact md5hex_ne_empty _
  have hnd : files.Nodup := hnames.of_map
  have hab : a ≠ b := by
    intro e
    rw [e, lexLt_irrefl] at hlt
    exact Bool.false_ne_true hlt
  have hle : pyStrLe a.name b.name = true := by
    rw [pyStrLe, lexLt_asymm _ _ hlt]
    rfl
  have hnle : pyStrLe b.name a.name = false := by
    rw [pyStrLe, hlt]
    rfl
  have hpchar : ∀ x ∈ files,
      ((get_file_hash x == get_file_hash a) = true ↔ (x = a ∨ x = b)) := by
    intro x hx
    constructor
    · intro hx'
      by_contra hcon
      push_neg at hcon
      exact hothers x hx hcon.1 hcon.2 (beq_iff_eq.mp hx')
    · rintro (rfl | rfl)
      · simp
      · rw [hdb]; simp
  have hfil := filter_eq_pair_of_nodup
    (fun x => get_file_hash x == get_file_hash a) files a b hnd ha hb hab
    hpchar
  have hgrp : groupsOf (buildGroups [] files) (get_file_hash a) =
      files.filter (fun x => get_file_hash x == get_file_hash a) := by
    rw [buildGroups_groupsOf files [] _ hdne]
    simp [groupsOf, List.find?]
  have hdelgroup : ∀ r : List FileEntry,
      r = files.filter (fun x => get_file_hash x == get_file_hash a) →
      groupDeletions r = [b] := by
    intro r hr
    have hsort : sortByName r = [a, b] := by
      rcases hfil with h | h
      · rw [hr, h]
        simp [sortByName, insertByName, hle]
      · rw [hr, h]
        simp [sortByName, insertByName, hnle]
    have hlen : 1 < r.length := by
      rw [hr]
      rcases hfil with h | h <;> simp [h]
    rw [groupDeletions, if_pos hlen, hsort]
    rfl
  have hgrpne : groupsOf (buildGroups [] files) (get_file_hash a) ≠ [] := by
    rw [hgrp]
    rcases hfil with h | h <;> simp [h]
  obtain ⟨p, hpmem, hpkey, hpval⟩ := groupsOf_exists _ _ hgrpne
  have hp2 : p.2 = files.filter
      (fun x => get_file_hash x == get_file_hash a) := hpval.trans hgrp
  have hbdel : b.name ∈ contentDeletedNames files := by
    rw [contentDeletedNames]
    refine List.mem_map_of_mem _ ?_
    rw [List.mem_filter]
    refine ⟨?_, hub⟩
    rw [contentDeletions, List.mem_flatMap]
    refine ⟨p, hpmem, ?_⟩
    rw [hdelgroup p.2 hp2]
    exact List.mem_singleton_self b
  constructor
  · rw [remove_duplicate_content_files, List.mem_filter]
    refine ⟨ha, ?_⟩
    have hanot : a.name ∉ contentDeletedNames files := by
      intro hx
      rw [contentDeletedNames, List.mem_map] at hx
      obtain ⟨x, hxf, hxname⟩ := hx
      rw [List.mem_filter] at hxf
      obtain ⟨hxdel, hxunl⟩ := hxf
      rw [contentDeletions, List.mem_flatMap] at hxdel
      obtain ⟨q, hq, hxq⟩ := hxdel
      have hxq2 : x ∈ q.2 := by
        rw [groupDeletions] at hxq
        by_cases hl : 1 < q.2.length
        · rw [if_pos hl] at hxq
          exact (sortByName_perm q.2).mem_iff.mp (List.mem_of_mem_tail hxq)
        · rw [if_neg hl] at hxq
          simp at hxq
      have hxkey : get_file_hash x = q.1 :=
        buildGroups_member_key files [] (by simp) q hq x hxq2
      have hq1ne : q.1 ≠ "" := buildGroups_key_ne files [] (by simp) q hq
      have hxfiles : x ∈ files := by
        rcases buildGroups_member files [] q x hq hxq2 with ⟨r, hr, _⟩ | h
        · simp at hr
        · exact h
      have hxa : x = a := eq_of_name_eq files x a hnames hxfiles ha hxname
      subst hxa
      have hqd : q.1 = get_file_hash x := hxkey.symm
      have hq2 : q.2 = files.filter
          (fun y => get_file_hash y == get_file_hash x) := by
        have hkeysnd : ((buildGroups [] files).map Prod.fst).Nodup :=
          buildGroups_keys_nodup files [] (by simp)
        have hm := mem_groupsOf _ q hkeysnd hq
        rw [hqd] at hm
        rw [← hm, hgrp]
      rw [hdelgroup q.2 hq2] at hxq
      simp at hxq
      exact hab hxq
    simp [List.contains, hanot]
  · intro hbmem
    rw [remove_duplicate_content_files, List.mem_filter] at hbmem
    have h2 := hbmem.2
    simp [List.contains, hbdel] at h2

theorem spec_C6_witness :
    (⟨"a.pdf", [7], true, true, true⟩ : FileEntry) ∈
      remove_duplicate_content_files
        [⟨"b.pdf", [7], true, true, true⟩, ⟨"a.pdf", [7], true, true, true⟩,
          ⟨"c.pdf", [9], true, true, true⟩] ∧
    (⟨"b.pdf", [7], true, true, true⟩ : FileEntry) ∉
      remove_duplicate_content_files
        [⟨"b.pdf", [7], true, true, true⟩, ⟨"a.pdf", [7], true, true, true⟩,
          ⟨"c.pdf", [9], true, true, true⟩] :=
  spec_C6
    [⟨"b.pdf", [7], true, true, true⟩, ⟨"a.pdf", [7], true, true, true⟩,
      ⟨"c.pdf", [9], true, true, true⟩]
    ⟨"a.pdf", [7], true, true, true⟩ ⟨"b.pdf", [7], true, true, true⟩
    (by decide) (by decide) (by decide) (by decide) (by decide) (by decide)
    (by decide) (by decide) (by decide)

/-- C10: when hashing a file raises, its digest is the empty string, the
duplicate-content sweep places it in no digest group, and the sweep never
deletes it; in particular two unreadable files are never grouped (and so
never treated) as duplicates of each other. -/
theorem spec_C10 (files : List FileEntry) (f : FileEntry)
    (hf : f ∈ files) (hnames : (files.map FileEntry.name).Nodup)
    (hbad : f.hashOk = false) :
    get_file_hash f = "" ∧
    (∀ p ∈ buildGroups [] files, f ∉ p.2) ∧
    f ∈ remove_duplicate_content_files files := by
  have hh : get_file_hash f = "" := by rw [get_file_hash, hbad]; rfl
  refine ⟨hh, ?_, ?_⟩
  · intro p hp hfp
    have hkey := buildGroups_member_key files [] (by simp) p hp f hfp
    have hne := buildGroups_key_ne files [] (by simp) p hp
    rw [hh] at hkey
    exact hne hkey.symm
  · rw [remove_duplicate_content_files, List.mem_filter]
    refine ⟨hf, ?_⟩
    have hnot : f.name ∉ contentDeletedNames files := by
      intro hx
      rw [contentDeletedNames, List.mem_map] at hx
      obtain ⟨x, hxf, hxname⟩ := hx
      rw [List.mem_filter] at hxf
      obtain ⟨hxdel, _⟩ := hxf
      rw [contentDeletions, List.mem_flatMap] at hxdel
      obtain ⟨q, hq, hxq⟩ := hxdel
      have hxq2 : x ∈ q.2 := by
        rw [groupDeletions] at hxq
        by_cases hl : 1 < q.2.length
        · rw [if_pos hl] at hxq
          exact (sortByName_perm q.2).mem_iff.mp (List.mem_of_mem_tail hxq)
        · rw [if_neg hl] at hxq
          simp at hxq
      have hxfiles : x ∈ files := by
        rcases buildGroups_member files [] q x hq hxq2 with ⟨r, hr, _⟩ | h
        · simp at hr
        · exact h
      have hxf2 : x = f := eq_of_name_eq files x f hnames hxfiles hf hxname
      subst hxf2
      have hxkey : get_file_hash x = q.1 :=
        buildGroups_member_key files [] (by simp) q hq x hxq2
      have hq1ne : q.1 ≠ "" := buildGroups_key_ne files [] (by simp) q hq
      rw [hh] at hxkey
      exact hq1ne hxkey.symm
    simp [List.contains, hnot]

theorem spec_C10_witness :
    get_file_hash (⟨"x.pdf", [1], false, true, true⟩ : FileEntry) = "" ∧
    (∀ p ∈ buildGroups []
        [⟨"x.pdf", [1], false, true, true⟩,
          ⟨"y.pdf", [1], false, true, true⟩],
      (⟨"x.pdf", [1], false, true, true⟩ : FileEntry) ∉ p.2) ∧
    (⟨"x.pdf", [1], false, true, true⟩ : FileEntry) ∈
      remove_duplicate_content_files
        [⟨"x.pdf", [1], false, true, true⟩,
          ⟨"y.pdf", [1], false, true, true⟩] :=
  spec_C10
    [⟨"x.pdf", [1], false, true, true⟩, ⟨"y.pdf", [1], false, true, true⟩]
    ⟨"x.pdf", [1], false, true, true⟩ (by decide) (by decide) (by decide)

/-! ### C3: per-file deletion-failure handling of the sweeps -/

theorem unlinkRun_eq (l : List FileEntry) :
    unlinkRun l =
      ((l.takeWhile (fun f => f.unlinkOk)).map FileEntry.name,
        l.all (fun f => f.unlinkOk)) := by
  induction l with
  | nil => rfl
  | cons f rest ih =>
    rw [unlinkRun]
    by_cases h : f.unlinkOk = true
    · rw [if_pos h]
      dsimp only
      rw [ih, List.takeWhile_cons, List.all_cons, h]
      simp
    · rw [if_neg h]
      have h' : f.unlinkOk = false := by
        cases hf : f.unlinkOk
        · rfl
        · exact absurd hf h
      rw [List.takeWhile_cons, List.all_cons, h']
      simp

/-- C3 (amended): in the duplicate-content and invalid-artifact sweeps
every deletion is wrapped in its own handler, so a deletable file marked
for deletion is always removed regardless of failures on other files; in
the duplicate-name sweep the deletion loop has no per-file handler — the
deleted set is exactly the prefix of the duplicate list before the first
failing unlink, and the sweep completes only when every unlink succeeds. -/
theorem spec_C3_amended :
    (∀ (files : List FileEntry) (f : FileEntry),
      f ∈ contentDeletions files → f.unlinkOk = true →
      f ∉ remove_duplicate_content_files files) ∧
    (∀ (files : List FileEntry) (f : FileEntry), f ∈ files →
      check_pdf f = false → f.unlinkOk = true →
      f ∉ remove_non_pdf_files files) ∧
    (∀ files : List FileEntry,
      remove_duplicate_files files =
        (files.filter (fun f =>
          !(((scanDups files []).takeWhile (fun g => g.unlinkOk)).map
            FileEntry.name).contains f.name),
          (scanDups files []).all (fun g => g.unlinkOk))) := by
  refine ⟨?_, ?_, ?_⟩
  · intro files f hdel hunl hmem
    rw [remove_duplicate_content_files, List.mem_filter] at hmem
    have h2 := hmem.2
    have hname : f.name ∈ contentDeletedNames files := by
      rw [contentDeletedNames]
      exact List.mem_map_of_mem _ (List.mem_filter.mpr ⟨hdel, hunl⟩)
    simp [List.contains, hname] at h2
  · intro files f _ hcheck hunl hmem
    rw [remove_non_pdf_files, List.mem_filter] at hmem
    have h2 := hmem.2
    rw [hcheck, hunl] at h2
    simp at h2
  · intro files
    rw [remove_duplicate_files, unlinkRun_eq]

theorem spec_C3_amended_witness :
    (⟨"dup.pdf", [5], true, true, true⟩ : FileEntry) ∉
      remove_duplicate_content_files
        [⟨"base.pdf", [5], true, true, true⟩,
          ⟨"dup.pdf", [5], true, true, true⟩] :=
  spec_C3_amended.1
    [⟨"base.pdf", [5], true, true, true⟩, ⟨"dup.pdf", [5], true, true, true⟩]
    ⟨"dup.pdf", [5], true, true, true⟩ (by decide) (by decide)

/-- C3 counterexample: in the duplicate-name sweep, one failing unlink
(on `a_1.pdf`) aborts the sweep: the later duplicate `a_2.pdf`, whose own
unlink would succeed, is left on disk and the deletion loop does not
complete — refuting the claim that no single deletion failure aborts any
of the three sweeps. -/
theorem spec_C3_counterexample :
    (⟨"a_2.pdf", [], true, true, true⟩ : FileEntry) ∈
      scanDups
        [⟨"a.pdf", [], true, true, true⟩, ⟨"a_1.pdf", [], true, true, false⟩,
          ⟨"a_2.pdf", [], true, true, true⟩] [] ∧
    (remove_duplicate_files
      [⟨"a.pdf", [], true, true, true⟩, ⟨"a_1.pdf", [], true, true, false⟩,
        ⟨"a_2.pdf", [], true, true, true⟩]).2 = false ∧
    (⟨"a_2.pdf", [], true, true, true⟩ : FileEntry) ∈
      (remove_duplicate_files
        [⟨"a.pdf", [], true, true, true⟩, ⟨"a_1.pdf", [], true, true, false⟩,
          ⟨"a_2.pdf", [], true, true, true⟩]).1 := by
  decide

/-! ### C4: idempotence and order-dependence of the duplicate-name sweep -/

theorem scanDups_subset :
    ∀ (l : List FileEntry) (bound : List String) (x : FileEntry),
      x ∈ scanDups l bound → x ∈ l := by
  intro l
  induction l with
  | nil => intro bound x hx; rw [scanDups] at hx; simp at hx
  | cons f rest ih =>
    intro bound x hx
    rw [scanDups] at hx
    cases hk : nameKey f.name with
    | some b =>
      rw [hk] at hx
      dsimp only at hx
      by_cases hb : b ∈ bound
      · rw [if_pos hb] at hx
        rcases List.mem_cons.mp hx with rfl | h
        · exact List.mem_cons_self _ _
        · exact List.mem_cons_of_mem _ (ih bound x h)
      · rw [if_neg hb] at hx
        exact List.mem_cons_of_mem _ (ih _ x hx)
    | none =>
      rw [hk] at hx
      dsimp only at hx
      exact List.mem_cons_of_mem _ (ih _ x hx)

theorem scanDups_filter_eq_nil :
    ∀ (l : List FileEntry) (bound : List String),
      (l.map FileEntry.name).Nodup →
      scanDups (l.filter (fun f =>
        !((scanDups l bound).map FileEntry.name).contains f.name)) bound =
        [] := by
  intro l
  induction l with
  | nil => intro bound _; rfl
  | cons f rest ih =>
    intro bound hnd
    have hnf : f.name ∉ rest.map FileEntry.name :=
      (List.nodup_cons.mp (by simpa using hnd)).1
    have hnd' : (rest.map FileEntry.name).Nodup :=
      (List.nodup_cons.mp (by simpa using hnd)).2
    rw [scanDups]
    cases hk : nameKey f.name with
    | some b =>
      dsimp only
      by_cases hb : b ∈ bound
      · rw [if_pos hb, List.filter_cons]
        have hfmem :
            (!((f :: scanDups rest bound).map FileEntry.name).contains
              f.name) = false := by
          simp [List.contains]
        rw [hfmem]
        simp only [Bool.false_eq_true, if_false]
        have hcongr : rest.filter (fun x =>
            !((f :: scanDups rest bound).map FileEntry.name).contains
              x.name) =
            rest.filter (fun x =>
            !((scanDups rest bound).map FileEntry.name).contains x.name) := by
          apply List.filter_congr
          intro x hx
          have hxne : (x.name == f.name) = false := by
            refine beq_eq_false_iff_ne.mpr fun e => ?_
            exact hnf (e ▸ List.mem_map_of_mem _ hx)
          simp only [List.map_cons, List.contains, List.elem_eq_mem,
            List.mem_cons]
          have hne := beq_eq_false_iff_ne.mp hxne
          simp [hne]
        rw [hcongr]
        exact ih bound hnd'
      · rw [if_neg hb, List.filter_cons]
        have hfk :
            (!((scanDups rest (b :: bound)).map FileEntry.name).contains
              f.name) = true := by
          have hno : f.name ∉ (scanDups rest (b :: bound)).map
              FileEntry.name := by
            intro hmem
            rw [List.mem_map] at hmem
            obtain ⟨x, hx, he⟩ := hmem
            exact hnf (he ▸ List.mem_map_of_mem _
              (scanDups_subset rest _ x hx))
          simp [List.contains, hno]
        rw [hfk]
        simp only [if_true]
        rw [scanDups, hk]
        dsimp only
        rw [if_neg hb]
        exact ih (b :: bound) hnd'
    | none =>
      dsimp only
      rw [List.filter_cons]
      have hfk :
          (!((scanDups rest (f.name :: bound)).map FileEntry.name).contains
            f.name) = true := by
        have hno : f.name ∉ (scanDups rest (f.name :: bound)).map
            FileEntry.name := by
          intro hmem
          rw [List.mem_map] at hmem
          obtain ⟨x, hx, he⟩ := hmem
          exact hnf (he ▸ List.mem_map_of_mem _
            (scanDups_subset rest _ x hx))
        simp [List.contains, hno]
      rw [hfk]
      simp only [if_true]
      rw [scanDups, hk]
      dsimp only
      exact ih (f.name :: bound) hnd'

/-- C4 (amended): re-running the duplicate-name sweep on its own output,
with the directory enumerated in the same relative order and all deletions
succeeding, deletes nothing further (per-order idempotence); but the
surviving set is not enumeration-order-independent — for a base file plus
a numbered variant one enumeration order deletes the variant while the
reverse order deletes nothing. -/
theorem spec_C4_amended (files : List FileEntry)
    (hnames : (files.map FileEntry.name).Nodup)
    (hunl : ∀ f ∈ files, f.unlinkOk = true) :
    remove_duplicate_files ((remove_duplicate_files files).1) =
      ((remove_duplicate_files files).1, true) := by
  have hall : (scanDups files []).all (fun f => f.unlinkOk) = true :=
    List.all_eq_true.mpr
      (fun f hf => hunl f (scanDups_subset files [] f hf))
  have htake : (scanDups files []).takeWhile (fun f => f.unlinkOk) =
      scanDups files [] := by
    rw [List.takeWhile_eq_self_iff]
    exact fun f hf => hunl f (scanDups_subset files [] f hf)
  have hsurv : (remove_duplicate_files files).1 =
      files.filter (fun f =>
        !((scanDups files []).map FileEntry.name).contains f.name) := by
    rw [remove_duplicate_files, unlinkRun_eq, htake]
  rw [hsurv]
  have hempty := scanDups_filter_eq_nil files [] hnames
  rw [remove_duplicate_files, hempty]
  rw [show unlinkRun [] = (([] : List String), true) from rfl]
  refine Prod.ext ?_ rfl
  dsimp only
  exact List.filter_eq_self.mpr (fun a _ => rfl)

theorem spec_C4_amended_witness :
    remove_duplicate_files ((remove_duplicate_files
        [⟨"file.pdf", [], true, true, true⟩,
          ⟨"file_1.pdf", [], true, true, true⟩]).1) =
      ((remove_duplicate_files
        [⟨"file.pdf", [], true, true, true⟩,
          ⟨"file_1.pdf", [], true, true, true⟩]).1, true) :=
  spec_C4_amended
    [⟨"file.pdf", [], true, true, true⟩, ⟨"file_1.pdf", [], true, true, true⟩]
    (by decide) (by decide)

/-- C4 counterexample: the duplicate-name sweep is not
enumeration-order-independent: over the same two files `file.pdf` and
`file_1.pdf`, the order base-first deletes the numbered variant while the
reverse order deletes nothing, so the surviving sets differ. -/
theorem spec_C4_counterexample :
    ((remove_duplicate_files
        [⟨"file.pdf", [], true, true, true⟩,
          ⟨"file_1.pdf", [], true, true, true⟩]).1.map FileEntry.name =
      ["file.pdf"]) ∧
    ((remove_duplicate_files
        [⟨"file_1.pdf", [], true, true, true⟩,
          ⟨"file.pdf", [], true, true, true⟩]).1.map FileEntry.name =
      ["file_1.pdf", "file.pdf"]) ∧
    ¬ ((remove_duplicate_files
        [⟨"file.pdf", [], true, true, true⟩,
          ⟨"file_1.pdf", [], true, true, true⟩]).1.Perm
      (remove_duplicate_files
        [⟨"file_1.pdf", [], true, true, true⟩,
          ⟨"file.pdf", [], true, true, true⟩]).1) := by
  decide

/-! ### C7: filename-synthesis policies of the discovery strategies -/

/-- C7 counterexample: the strategies do not share a path-segment-first
preference order: on a URL whose path segment is present, long enough and
not the degenerate placeholder, the html anchor rule produces the
path-derived name while the markdown inline-link rule produces the
title-derived name instead. -/
theorem spec_C7_counterexample :
    badName (basenameOf (urlPath "https://x.com/verylongname.pdf")) =
        false ∧
    markdownInlineFilename (fun _ => 0) "https://x.com/verylongname.pdf"
        "Good Title" = "Good_Title.pdf" ∧
    htmlAnchorFilename (fun _ => 0) "https://x.com/verylongname.pdf"
        "Good Title" = "verylongname.pdf" ∧
    "Good_Title.pdf" ≠ "verylongname.pdf" := by
  decide

theorem badName_append_pdf_of_ne_empty (t : String) (ht : t ≠ "") :
    badName (t ++ ".pdf") = false := by
  have hlen : 1 ≤ t.length := by
    cases t with
    | mk data =>
      cases data with
      | nil => exact absurd rfl ht
      | cons c cs => simp
  have e4 : (".pdf" : String).length = 4 := rfl
  rw [badName]
  have h1 : (t ++ ".pdf" == "") = false := by
    refine beq_eq_false_iff_ne.mpr fun e => ?_
    have he := congrArg String.length e
    simp at he
    omega
  have h2 : (t ++ ".pdf" == ".pdf") = false := by
    refine beq_eq_false_iff_ne.mpr fun e => ?_
    have he := congrArg String.length e
    rw [String.length_append] at he
    omega
  have h3 : decide ((t ++ ".pdf").length < 5) = false := by
    simp only [decide_eq_false_iff_not, String.length_append, not_lt]
    omega
  rw [h1, h2, h3]
  rfl

/-- C7 (amended): the html anchor rule prefers the URL path segment, then
the link text, then the URL-hash name; the markdown inline-link rule
prefers the cleaned link title over the path segment, falling back to the
path segment and then to the URL-hash name; the bare-URL, raw-content and
api-tree rules use the path segment with the URL-hash fallback and no
text step; and every synthesized name ends in `.pdf`. -/
theorem spec_C7_amended :
    (∀ (urlHash : String → Nat) (url text : String),
      badName (basenameOf (urlPath url)) = false →
      htmlAnchorFilename urlHash url text =
        normalizeFilename (basenameOf (urlPath url))) ∧
    (∀ (urlHash : String → Nat) (url title : String),
      cleanTitle title ≠ "" →
      markdownInlineFilename urlHash url title =
        normalizeFilename (cleanTitle title ++ ".pdf")) ∧
    (∀ (urlHash : String → Nat) (url title : String),
      cleanTitle title = "" → badName (basenameOf (urlPath url)) = false →
      markdownInlineFilename urlHash url title =
        normalizeFilename (basenameOf (urlPath url))) ∧
    (∀ (urlHash : String → Nat) (url : String),
      badName (basenameOf (urlPath url)) = false →
      markdownDirectFilename urlHash url =
        normalizeFilename (basenameOf (urlPath url)) ∧
      htmlRawFilename urlHash url =
        normalizeFilename (basenameOf (urlPath url))) ∧
    (∀ (urlHash : String → Nat) (raw_url path : String),
      badName (basenameOf path) = false →
      apiTreeFilename urlHash raw_url path =
        normalizeFilename (basenameOf path)) ∧
    (∀ (urlHash : String → Nat) (url : String),
      badName (basenameOf (urlPath url)) = true →
      markdownDirectFilename urlHash url =
        normalizeFilename (hashName urlHash url)) ∧
    (∀ s : String, pyEndsWith (normalizeFilename s) ".pdf" = true) ∧
    (∀ (urlHash : String → Nat) (url text : String),
      badName (basenameOf (urlPath url)) = true →
      text ≠ "" → 3 < text.length →
      htmlAnchorFilename urlHash url text =
        normalizeFilename (cleanTitle text ++ ".pdf")) ∧
    (∀ (urlHash : String → Nat) (url text : String),
      badName (basenameOf (urlPath url)) = true → text.length ≤ 3 →
      htmlAnchorFilename urlHash url text =
        normalizeFilename (hashName urlHash url)) ∧
    (∀ (urlHash : String → Nat) (url title : String),
      cleanTitle title = "" → badName (basenameOf (urlPath url)) = true →
      basenameOf (urlPath url) ≠ "" →
      markdownInlineFilename urlHash url title =
        normalizeFilename (basenameOf (urlPath url))) ∧
    (∀ (urlHash : String → Nat) (url title : String),
      cleanTitle title = "" → basenameOf (urlPath url) = "" →
      markdownInlineFilename urlHash url title =
        normalizeFilename (hashName urlHash url)) ∧
    (∀ (urlHash : String → Nat) (url : String),
      badName (basenameOf (urlPath url)) = true →
      htmlRawFilename urlHash url =
        normalizeFilename (hashName urlHash url)) ∧
    (∀ (urlHash : String → Nat) (raw_url path : String),
      badName (basenameOf path) = true →
      apiTreeFilename urlHash raw_url path =
        normalizeFilename (hashName urlHash raw_url)) := by
  refine ⟨?_, ?_, ?_, ?_, ?_, ?_, ?_, ?_, ?_, ?_, ?_, ?_, ?_⟩
  · intro urlHash url text h
    simp only [htmlAnchorFilename]
    rw [if_neg (by simp [h])]
  · intro urlHash url title ht
    have h1 : (cleanTitle title != "") = true := by simp [ht]
    simp only [markdownInlineFilename, h1, if_true]
    rw [if_neg (by
      simp [badName_append_pdf_of_ne_empty (cleanTitle title) ht])]
  · intro urlHash url title ht h
    have h1 : (cleanTitle title != "") = false := by simp [ht]
    simp only [markdownInlineFilename, h1, Bool.false_eq_true, if_false]
    rw [if_neg (by simp [h])]
  · intro urlHash url h
    constructor
    · simp only [markdownDirectFilename]
      rw [if_neg (by simp [h])]
    · simp only [htmlRawFilename]
      rw [if_neg (by simp [h])]
  · intro urlHash raw_url path h
    simp only [apiTreeFilename]
    rw [if_neg (by simp [h])]
  · intro urlHash url h
    simp only [markdownDirectFilename]
    rw [if_pos h]
  · intro s
    rw [normalizeFilename, ensurePdfExt]
    by_cases h : pyEndsWith (normalizeKeepDots s) ".pdf" = true
    · rw [if_pos h]
      exact h
    · rw [if_neg h, pyEndsWith]
      rw [List.isSuffixOf_iff_suffix]
      rw [show (normalizeKeepDots s ++ ".pdf").toList =
        (normalizeKeepDots s).toList ++ ".pdf".toList from
        String.data_append _ _]
      exact List.suffix_append _ _
  · intro urlHash url text h htext hlen
    have hc : (text != "" && decide (3 < text.length)) = true := by
      simp [htext, hlen]
    simp [htmlAnchorFilename, h, hc]
  · intro urlHash url text h hlen
    have hc : (text != "" && decide (3 < text.length)) = false := by
      simp [Nat.not_lt.mpr hlen]
    simp [htmlAnchorFilename, h, hc]
  · intro urlHash url title ht h hbn
    have h1 : (cleanTitle title != "") = false := by simp [ht]
    have h2 : (basenameOf (urlPath url) != "") = true := by simp [hbn]
    simp [markdownInlineFilename, h1, h, h2]
  · intro urlHash url title ht hbn
    have h1 : (cleanTitle title != "") = false := by simp [ht]
    have h2 : badName (basenameOf (urlPath url)) = true := by
      rw [hbn]
      rfl
    have h3 : (basenameOf (urlPath url) != "") = false := by simp [hbn]
    simp [markdownInlineFilename, h1, h2, h3]
  · intro urlHash url h
    simp [htmlRawFilename, h]
  · intro urlHash raw_url path h
    simp [apiTreeFilename, h]

theorem spec_C7_amended_witness :
    markdownInlineFilename (fun _ => 0) "https://x.com/book.pdf"
      "Nice Title" = "Nice_Title.pdf" := by
  have h := spec_C7_amended.2.1 (fun _ => 0) "https://x.com/book.pdf"
    "Nice Title" (by decide)
  rw [h]
  decide
